import Mathlib

/-!
Verification development for the `estrai-cambio-web` exchange-rate extractor.

The embedding models `src/estrai_cambio.py`:
* the CSV ledger layer (`csv.reader` / `csv.writer` with `;` delimiter,
  restricted to the unquoted fragment the program itself produces: a file is a
  list of lines, a line with no quote characters splits on `;`, the empty line
  parses to the empty row exactly as `csv.reader` yields `[]` for a blank line);
* `save_csv` (header self-healing, date-keyed upsert, temp-file-then-rename);
* `extract_eur_rate` (header-index resolution, first-match currency scan,
  float validation of comma→dot normalised values, dot→comma display values);
* the orchestrator `main` (gates, skip-if-exists check over `rows[1:]`,
  fetch/extract/persist pipeline).
-/

deriving instance DecidableEq for Except

namespace EstraiCambio

/-! ### CSV line layer -/

/-- Split a list of characters on the `;` delimiter, as `csv.reader` does for a
line containing no quote characters.  Always returns a non-empty list of
fields. -/
def splitSemi : List Char → List (List Char)
  | [] => [[]]
  | c :: cs =>
    if c = ';' then [] :: splitSemi cs
    else
      match splitSemi cs with
      | [] => [[c]]
      | p :: ps => (c :: p) :: ps

/-- Join fields with the `;` delimiter, as `csv.writer` renders a row whose
fields need no quoting. -/
def joinSemi : List (List Char) → List Char
  | [] => []
  | [p] => p
  | p :: ps => p ++ ';' :: joinSemi ps

theorem splitSemi_ne_nil (l : List Char) : splitSemi l ≠ [] := by
  cases l with
  | nil => simp [splitSemi]
  | cons c cs =>
    simp only [splitSemi]
    split
    · simp
    · split <;> simp

theorem joinSemi_splitSemi (l : List Char) : joinSemi (splitSemi l) = l := by
  induction l with
  | nil => simp [splitSemi, joinSemi]
  | cons c cs ih =>
    simp only [splitSemi]
    split
    · rename_i hc
      subst hc
      rcases h : splitSemi cs with _ | ⟨p, ps⟩
      · exact absurd h (splitSemi_ne_nil cs)
      · rw [h] at ih
        simp [joinSemi, ← ih]
    · rename_i hc
      rcases h : splitSemi cs with _ | ⟨p, ps⟩
      · exact absurd h (splitSemi_ne_nil cs)
      · rw [h] at ih
        cases ps with
        | nil => simp [joinSemi] at ih ⊢; exact ih
        | cons q qs => simp [joinSemi] at ih ⊢; exact ih

theorem not_semi_mem_splitSemi (l : List Char) :
    ∀ p ∈ splitSemi l, ';' ∉ p := by
  induction l with
  | nil => simp [splitSemi]
  | cons c cs ih =>
    simp only [splitSemi]
    split
    · rename_i hc
      intro p hp
      rcases hp with _ | hp
      · simp
      · exact ih p (by assumption)
    · rename_i hc
      rcases h : splitSemi cs with _ | ⟨q, qs⟩
      · exact absurd h (splitSemi_ne_nil cs)
      · rw [h] at ih
        intro p hp
        rcases hp with _ | hp
        · intro hmem
          rcases hmem with _ | hmem
          · exact hc rfl
          · exact ih q (by simp) (by assumption)
        · exact ih p (by simp [h]; right; assumption)

theorem splitSemi_of_not_mem (p : List Char) (h : ';' ∉ p) :
    splitSemi p = [p] := by
  induction p with
  | nil => simp [splitSemi]
  | cons c cs ih =>
    have hc : c ≠ ';' := by intro hc; exact h (by simp [hc])
    have hcs : ';' ∉ cs := by intro hm; exact h (by simp [hm])
    simp only [splitSemi, if_neg hc, ih hcs]

theorem splitSemi_append_semi (p t : List Char) (h : ';' ∉ p) :
    splitSemi (p ++ ';' :: t) = p :: splitSemi t := by
  induction p with
  | nil => simp [splitSemi]
  | cons c cs ih =>
    have hc : c ≠ ';' := by intro hc; exact h (by simp [hc])
    have hcs : ';' ∉ cs := by intro hm; exact h (by simp [hm])
    show splitSemi (c :: (cs ++ ';' :: t)) = (c :: cs) :: splitSemi t
    simp only [splitSemi, if_neg hc]
    rw [ih hcs]

theorem splitSemi_joinSemi (parts : List (List Char)) (hne : parts ≠ [])
    (h : ∀ p ∈ parts, ';' ∉ p) : splitSemi (joinSemi parts) = parts := by
  induction parts with
  | nil => exact absurd rfl hne
  | cons p ps ih =>
    cases ps with
    | nil => simpa [joinSemi] using splitSemi_of_not_mem p (h p (by simp))
    | cons q qs =>
      have hp : ';' ∉ p := h p (by simp)
      have hrest : ∀ r ∈ q :: qs, ';' ∉ r := fun r hr => h r (by simp [hr])
      simp only [joinSemi, splitSemi_append_semi p _ hp]
      rw [ih (by simp) hrest]

theorem splitSemi_ne_singleton_nil (l : List Char) (h : l ≠ []) :
    splitSemi l ≠ [[]] := by
  cases l with
  | nil => exact absurd rfl h
  | cons c cs =>
    simp only [splitSemi]
    split
    · intro hcon
      have : splitSemi cs = [] := by
        injection hcon with h1 h2
      exact splitSemi_ne_nil cs this
    · rcases hsp : splitSemi cs with _ | ⟨p, ps⟩
      · exact absurd hsp (splitSemi_ne_nil cs)
      · intro hcon
        injection hcon with h1 h2
        exact List.cons_ne_nil c p h1

/-- Parse one line of the ledger file, modelling `csv.reader` on the unquoted
fragment: a blank line yields the empty row, any other line splits on `;`. -/
def parseLine (s : String) : List String :=
  if s.data = [] then [] else (splitSemi s.data).map String.mk

/-- Render one row, modelling `csv.writer.writerow` for fields that need no
quoting: fields joined by `;`. -/
def writeRow (r : List String) : String :=
  String.mk (joinSemi (r.map String.data))

/-- Parse a whole ledger file (given as its list of lines), modelling
`list(csv.reader(f, delimiter=";"))`. -/
def parseCSV (ls : List String) : List (List String) :=
  ls.map parseLine

/-- Render a whole row set as the list of lines `csv.writer(...).writerows`
produces. -/
def writeCSV (rs : List (List String)) : List String :=
  rs.map writeRow

theorem writeRow_parseLine (l : String) (h : l.data ≠ []) :
    writeRow (parseLine l) = l := by
  simp only [parseLine, if_neg h, writeRow]
  rw [List.map_map]
  have : (String.data ∘ String.mk) = id := rfl
  rw [this, List.map_id, joinSemi_splitSemi]

theorem parseLine_writeRow_parseLine (l : String) :
    parseLine (writeRow (parseLine l)) = parseLine l := by
  by_cases h : l.data = []
  · simp [parseLine, h, writeRow, joinSemi]
  · rw [writeRow_parseLine l h]

theorem map_id_of_mem {α : Type} (f : α → α) (l : List α)
    (h : ∀ a ∈ l, f a = a) : l.map f = l := by
  induction l with
  | nil => rfl
  | cons a as ih =>
    simp only [List.map_cons, h a (by simp), ih fun a ha => h a (by simp [ha])]

theorem parseLine_writeRow_of_fields (r : List String) (hne : r ≠ [])
    (hq : ∀ f ∈ r, ';' ∉ f.data) (hsing : r ≠ [String.mk []]) :
    parseLine (writeRow r) = r := by
  have hparts : r.map String.data ≠ [] := by
    intro h; exact hne (List.map_eq_nil_iff.mp h)
  have hqs : ∀ p ∈ r.map String.data, ';' ∉ p := by
    intro p hp
    rcases List.mem_map.mp hp with ⟨f, hf, rfl⟩
    exact hq f hf
  have hsplit : splitSemi (joinSemi (r.map String.data)) = r.map String.data :=
    splitSemi_joinSemi _ hparts hqs
  have hz : ¬((writeRow r).data = []) := by
    show ¬(joinSemi (r.map String.data) = [])
    intro hz
    cases r with
    | nil => exact hne rfl
    | cons f fs =>
      cases fs with
      | nil =>
        have hfd : f.data = [] := hz
        apply hsing
        rcases f with ⟨fd⟩
        simp only [List.cons.injEq, and_true]
        rw [show fd = [] from hfd]
      | cons g gs =>
        simp [joinSemi] at hz
  simp only [parseLine, if_neg hz]
  show (splitSemi (joinSemi (r.map String.data))).map String.mk = r
  rw [hsplit, List.map_map]
  exact map_id_of_mem _ r (fun a _ => rfl)

theorem parseCSV_writeCSV (rs : List (List String))
    (h : ∀ r ∈ rs, parseLine (writeRow r) = r) :
    parseCSV (writeCSV rs) = rs := by
  simp only [parseCSV, writeCSV, List.map_map]
  exact map_id_of_mem _ rs h

/-! ### Ledger: `save_csv` -/

/-- Runtime failures of the ledger code that fall outside the spec's error
taxonomy: `indexError` models the Python `IndexError` raised by `r[0]` on an
empty row. -/
inductive PyError
  | indexError
deriving DecidableEq

/-- The canonical ledger header, `header = ["Data", "Middle", "Sales"]` in
`save_csv`. -/
def header : List String := ["Data", "Middle", "Sales"]

/-- The parsed contents of the ledger path: `[]` when the file does not exist,
otherwise `list(csv.reader(f, delimiter=";"))` on its lines. -/
def existingOf : Option (List String) → List (List String)
  | none => []
  | some ls => parseCSV ls

/-- The header self-healing step of `save_csv`:
`if not existing or existing[0] != header: existing.insert(0, header)`. -/
def normalizeHeader (existing : List (List String)) : List (List String) :=
  if existing.head? = some header then existing else header :: existing

/-- The date scan `dates = [r[0] for r in existing]`; `r[0]` raises
`IndexError` on an empty row, which propagates. -/
def scanDates : List (List String) → Except PyError (List String)
  | [] => .ok []
  | r :: rs =>
    match r with
    | [] => .error .indexError
    | x :: _ =>
      match scanDates rs with
      | .error e => .error e
      | .ok ds => .ok (x :: ds)

/-- First fields of a list of rows (total companion of the date scan). -/
def heads (rs : List (List String)) : List String :=
  rs.map List.headI

/-- Python `list.index`: index of the first occurrence (callers guard
membership first, as the source does with `if today in dates`). -/
def listIndex (x : String) : List String → Nat
  | [] => 0
  | y :: ys => if y = x then 0 else listIndex x ys + 1

/-- The upsert step of `save_csv`: replace the first row whose date equals
`today`, else append `row = [today, middle, sales]`. -/
def upsertRow (existing : List (List String)) (today middle sales : String) :
    Except PyError (List (List String)) :=
  match scanDates existing with
  | .error e => .error e
  | .ok dates =>
    if today ∈ dates then
      .ok (existing.set (listIndex today dates) [today, middle, sales])
    else
      .ok (existing ++ [[today, middle, sales]])

/-- `save_csv(path, middle, sales)` at its observable file level: takes the
current file contents (as lines, `none` when the path does not exist) and
`today` (the `%d/%m/%Y`-rendered date), and returns the lines written, or the
propagated `IndexError`.  Directory creation and logging are side effects with
no bearing on the file contents. -/
def save_csv (file? : Option (List String)) (today middle sales : String) :
    Except PyError (List String) :=
  match upsertRow (normalizeHeader (existingOf file?)) today middle sales with
  | .error e => .error e
  | .ok rows => .ok (writeCSV rows)

/-! ### Atomic write model -/

/-- The two file-system mutations `save_csv` performs after computing the row
set: write the full serialization to the temporary sibling, then rename it
over the target. -/
inductive WriteStep
  | writeTemp
  | renameTemp
deriving DecidableEq

/-- The file-system state visible at the ledger path and its temporary
sibling. -/
structure FS where
  target : Option (List String)
  temp : Option (List String)
deriving DecidableEq

/-- Effect of one step: `writeTemp` is `temp.open("w") ... writerows`,
`renameTemp` is the atomic `temp.replace(path)`. -/
def applyStep (newLines : List String) (fs : FS) : WriteStep → FS
  | .writeTemp => { fs with temp := some newLines }
  | .renameTemp => { target := fs.temp, temp := none }

/-- Run a sequence of write steps. -/
def runSteps (newLines : List String) (fs : FS) (steps : List WriteStep) : FS :=
  steps.foldl (applyStep newLines) fs

/-- The step sequence `save_csv` executes. -/
def saveSteps : List WriteStep := [WriteStep.writeTemp, WriteStep.renameTemp]

/-- Every interruption point of the write sequence: nothing done, temp
written, rename done. -/
def stepPrefixes : List (List WriteStep) :=
  [[], [WriteStep.writeTemp], saveSteps]

/-- `save_csv` acting on the file system: on an upsert error the exception
propagates before any file is touched; on success the two write steps run. -/
def save_csv_fs (fs : FS) (today middle sales : String) :
    FS × Except PyError Unit :=
  match save_csv fs.target today middle sales with
  | .error e => (fs, .error e)
  | .ok out => (runSteps out fs saveSteps, .ok ())

/-! ### Ledger lemmas -/

theorem scanDates_ok_of_ne_nil (l : List (List String))
    (h : ∀ r ∈ l, r ≠ []) : scanDates l = .ok (heads l) := by
  induction l with
  | nil => rfl
  | cons r rs ih =>
    cases r with
    | nil => exact absurd rfl (h [] (by simp))
    | cons x xs =>
      simp only [scanDates, ih fun r hr => h r (by simp [hr])]
      rfl

theorem scanDates_error_of_mem_nil (l : List (List String))
    (h : [] ∈ l) : scanDates l = .error .indexError := by
  induction l with
  | nil => simp at h
  | cons r rs ih =>
    cases r with
    | nil => rfl
    | cons x xs =>
      have hrs : [] ∈ rs := by
        cases h with
        | tail _ h => exact h
      simp only [scanDates, ih hrs]

theorem scanDates_ok_elim (l : List (List String)) (ds : List String)
    (h : scanDates l = .ok ds) : (∀ r ∈ l, r ≠ []) ∧ ds = heads l := by
  induction l generalizing ds with
  | nil =>
    simp only [scanDates, Except.ok.injEq] at h
    exact ⟨by simp, by simp [heads, ← h]⟩
  | cons r rs ih =>
    cases r with
    | nil => simp [scanDates] at h
    | cons x xs =>
      simp only [scanDates] at h
      rcases hrec : scanDates rs with e | ds'
      · rw [hrec] at h; simp at h
      · rw [hrec] at h
        simp only [Except.ok.injEq] at h
        rcases ih ds' hrec with ⟨hne, hds⟩
        constructor
        · intro q hq
          cases hq with
          | head => simp
          | tail _ hq => exact hne q hq
        · rw [← h, hds]
          simp [heads]

theorem listIndex_append (ds1 ds2 : List String) (t : String)
    (h : t ∉ ds1) : listIndex t (ds1 ++ t :: ds2) = ds1.length := by
  induction ds1 with
  | nil => simp [listIndex]
  | cons d ds ih =>
    have hd : d ≠ t := by intro he; exact h (by simp [he])
    have hds : t ∉ ds := by intro hm; exact h (by simp [hm])
    simp [listIndex, if_neg hd, ih hds]

theorem set_append_length {α : Type} (xs ys : List α) (y z : α) :
    (xs ++ y :: ys).set xs.length z = xs ++ z :: ys := by
  induction xs with
  | nil => rfl
  | cons a as ih => simp [List.set, ih]

theorem not_mem_heads (rs : List (List String)) (t : String)
    (h : ∀ q ∈ rs, q.headI ≠ t) : t ∉ heads rs := by
  intro hm
  rcases List.mem_map.mp hm with ⟨q, hq, hqt⟩
  exact h q hq hqt

theorem upsertRow_found (pre post : List (List String)) (rest : List String)
    (t m s : String)
    (hpre : ∀ q ∈ pre, q ≠ [] ∧ q.headI ≠ t)
    (hpost : ∀ q ∈ post, q ≠ []) :
    upsertRow (pre ++ (t :: rest) :: post) t m s =
      .ok (pre ++ [t, m, s] :: post) := by
  have hne : ∀ r ∈ pre ++ (t :: rest) :: post, r ≠ [] := by
    intro r hr
    rcases List.mem_append.mp hr with hr | hr
    · exact (hpre r hr).1
    · rcases hr with hr | hr
      · simp
      · exact hpost r (by assumption)
  have hscan := scanDates_ok_of_ne_nil _ hne
  have hheads : heads (pre ++ (t :: rest) :: post) =
      heads pre ++ t :: heads post := by
    simp [heads]
  have htpre : t ∉ heads pre :=
    not_mem_heads pre t fun q hq => (hpre q hq).2
  have hmem : t ∈ heads (pre ++ (t :: rest) :: post) := by
    rw [hheads]; exact List.mem_append.mpr (Or.inr (by simp))
  have hidx : listIndex t (heads (pre ++ (t :: rest) :: post)) = pre.length := by
    rw [hheads, listIndex_append _ _ _ htpre]
    simp [heads]
  simp only [upsertRow, hscan, if_pos hmem, hidx]
  have hlen : pre.length = pre.length := rfl
  rw [show (pre ++ (t :: rest) :: post).set pre.length [t, m, s] =
      pre ++ [t, m, s] :: post from set_append_length pre post (t :: rest) _]

theorem upsertRow_append (ex : List (List String)) (t m s : String)
    (h : ∀ q ∈ ex, q ≠ [] ∧ q.headI ≠ t) :
    upsertRow ex t m s = .ok (ex ++ [[t, m, s]]) := by
  have hscan := scanDates_ok_of_ne_nil ex fun r hr => (h r hr).1
  have hnm : t ∉ heads ex := not_mem_heads ex t fun q hq => (h q hq).2
  simp only [upsertRow, hscan, if_neg hnm]

theorem heads_decomp (ex : List (List String)) (t : String)
    (hne : ∀ r ∈ ex, r ≠ []) (hmem : t ∈ heads ex) :
    ∃ pre rest post, ex = pre ++ (t :: rest) :: post ∧
      ∀ q ∈ pre, q ≠ [] ∧ q.headI ≠ t := by
  induction ex with
  | nil => simp [heads] at hmem
  | cons r rs ih =>
    rcases hr : r with _ | ⟨x, xs⟩
    · exact absurd rfl (hne [] (by simp [← hr]))
    · by_cases hx : x = t
      · exact ⟨[], xs, rs, by simp [hx], by simp⟩
      · have hc : t ∈ x :: heads rs := by rw [hr] at hmem; exact hmem
        have hmem' : t ∈ heads rs := by
          rcases List.mem_cons.mp hc with h | h
          · exact absurd h.symm hx
          · exact h
        rcases ih (fun q hq => hne q (by simp [hq])) hmem' with
          ⟨pre, rest, post, hdec, hpre⟩
        refine ⟨(x :: xs) :: pre, rest, post, by simp [hdec], ?_⟩
        intro q hq
        rcases hq with hq | hq
        · exact ⟨by simp, by simpa [List.headI] using hx⟩
        · exact hpre q (by assumption)

theorem normalizeHeader_head (ex : List (List String)) :
    (normalizeHeader ex).head? = some header := by
  unfold normalizeHeader
  split
  · assumption
  · rfl

theorem normalizeHeader_ne_nil (ex : List (List String)) :
    normalizeHeader ex ≠ [] := by
  intro h
  have := normalizeHeader_head ex
  rw [h] at this
  simp at this

theorem mem_normalizeHeader (ex : List (List String)) (r : List String)
    (h : r ∈ normalizeHeader ex) : r = header ∨ r ∈ ex := by
  unfold normalizeHeader at h
  split at h
  · exact Or.inr h
  · rcases h with h | h
    · exact Or.inl rfl
    · exact Or.inr (by assumption)

theorem save_csv_ok_elim (file? : Option (List String)) (t m s : String)
    (out : List String) (h : save_csv file? t m s = .ok out) :
    ∃ res, upsertRow (normalizeHeader (existingOf file?)) t m s = .ok res ∧
      out = writeCSV res := by
  unfold save_csv at h
  rcases hu : upsertRow (normalizeHeader (existingOf file?)) t m s with e | res
  · rw [hu] at h; simp at h
  · rw [hu] at h
    simp only [Except.ok.injEq] at h
    exact ⟨res, rfl, h.symm⟩

theorem upsertRow_ok_ne_nil (ex : List (List String)) (t m s : String)
    (res : List (List String)) (h : upsertRow ex t m s = .ok res) :
    ∀ r ∈ ex, r ≠ [] := by
  unfold upsertRow at h
  rcases hs : scanDates ex with e | ds
  · rw [hs] at h; simp at h
  · exact (scanDates_ok_elim ex ds hs).1

/-! ### Extractor: `extract_eur_rate` -/

/-- The rate table after BeautifulSoup parsing: the `th` texts of the resolved
header row, and the `td` texts of each `tr` of the body.  BeautifulSoup
parsing and cell-text stripping are the embedding boundary. -/
structure HtmlTable where
  headers : List String
  rows : List (List String)
deriving DecidableEq

/-- Failures of `extract_eur_rate` after the table is located:
`headersMissing` models the `ValueError` from `headers.index` re-raised with
the observed header list; `nonNumeric` the float-validation failure carrying
both raw strings; `currencyNotFound` the fall-through after the row scan;
`indexError` an uncaught `IndexError` from indexing a short row. -/
inductive ExtractError
  | headersMissing (label : String) (found : List String)
  | nonNumeric (middle sales : String)
  | currencyNotFound (currency : String)
  | indexError
deriving DecidableEq

/-- ASCII upper-casing, modelling `str.upper()` on the ASCII currency codes
the table carries. -/
def pyUpper (s : String) : String :=
  String.mk (s.data.map Char.toUpper)

/-- Single-character replacement, modelling `str.replace(a, b)` for
one-character patterns. -/
def replaceChar (a b : Char) (s : String) : String :=
  String.mk (s.data.map fun c => if c = a then b else c)

/-- `raw.replace(",", ".")`, the validation-side normalization. -/
def commaToDot (s : String) : String := replaceChar ',' '.' s

/-- `raw.replace(".", ",")`, the display-side normalization. -/
def dotToComma (s : String) : String := replaceChar '.' ',' s

/-- Drop one leading sign character, part of the `float()` literal grammar. -/
def dropSign : List Char → List Char
  | [] => []
  | c :: cs => if c = '+' ∨ c = '-' then cs else c :: cs

/-- Consume the mantissa of a `float()` literal (`digits`, `digits.digits?`,
or `.digits`); returns the remaining characters, or `none` if no valid
mantissa starts the input. -/
def floatMantissa (l : List Char) : Option (List Char) :=
  let d1 := l.takeWhile Char.isDigit
  let r1 := l.dropWhile Char.isDigit
  match r1 with
  | '.' :: r2 =>
    let d2 := r2.takeWhile Char.isDigit
    let r3 := r2.dropWhile Char.isDigit
    if d1.isEmpty && d2.isEmpty then none else some r3
  | _ => if d1.isEmpty then none else some r1

/-- Accept an optional exponent part then end of input. -/
def floatExponent : List Char → Bool
  | [] => true
  | c :: rest =>
    if c = 'e' ∨ c = 'E' then
      let rest' := dropSign rest
      !rest'.isEmpty && rest'.all Char.isDigit
    else false

/-- Model of Python `float(s)` succeeding, on the decimal-literal fragment
(optional sign, mantissa, optional exponent; the `inf`/`nan`/underscore forms
never arise from rate cells). -/
def isPyFloat (s : String) : Bool :=
  match floatMantissa (dropSign s.data) with
  | some rest => floatExponent rest
  | none => false

/-- `cols[i]`: Python list indexing, raising `IndexError` out of range. -/
def getCell (cols : List String) (i : Nat) : Except ExtractError String :=
  match cols.get? i with
  | some v => .ok v
  | none => .error .indexError

/-- `headers.index(label)` under the `try`: the first index on success, the
re-raised error naming the missing label and the observed headers on
`ValueError`. -/
def headerIndex (hs : List String) (label : String) : Except ExtractError Nat :=
  if label ∈ hs then .ok (listIndex label hs) else .error (.headersMissing label hs)

/-- Processing of the matched currency row: validate both raw values with
`float` after comma→dot replacement, then return them in dot→comma display
form. -/
def rowResult (cols : List String) (idxMid idxSal : Nat) :
    Except ExtractError (String × String) :=
  match getCell cols idxMid with
  | .error e => .error e
  | .ok rawMid =>
    match getCell cols idxSal with
    | .error e => .error e
    | .ok rawSal =>
      if isPyFloat (commaToDot rawMid) && isPyFloat (commaToDot rawSal) then
        .ok (dotToComma rawMid, dotToComma rawSal)
      else
        .error (.nonNumeric rawMid rawSal)

/-- The data-row scan of `extract_eur_rate`: skip rows with no cells, take the
first row whose currency cell matches case-insensitively, else fall through to
the currency-not-found error. -/
def scanRows (idxCur idxMid idxSal : Nat) (currency : String) :
    List (List String) → Except ExtractError (String × String)
  | [] => .error (.currencyNotFound currency)
  | cols :: rest =>
    if cols = [] then scanRows idxCur idxMid idxSal currency rest
    else
      match getCell cols idxCur with
      | .error e => .error e
      | .ok c =>
        if pyUpper c = pyUpper currency then rowResult cols idxMid idxSal
        else scanRows idxCur idxMid idxSal currency rest

/-- `extract_eur_rate` from the resolved table onward: resolve the three
column indices (first missing label aborts), then scan the rows.  The HTTP
fetch and the table-absent check are upstream of this model. -/
def extract_eur_rate (tbl : HtmlTable) (currency : String) :
    Except ExtractError (String × String) :=
  match headerIndex tbl.headers "Currency" with
  | .error e => .error e
  | .ok idxCur =>
    match headerIndex tbl.headers "Middle" with
    | .error e => .error e
    | .ok idxMid =>
      match headerIndex tbl.headers "Sales" with
      | .error e => .error e
      | .ok idxSal => scanRows idxCur idxMid idxSal currency tbl.rows

/-! ### Orchestrator: `main` -/

/-- Observable outcome of one successful run: whether the skip branch was
taken, whether the network pipeline (fetch + extract) ran, and the ledger
contents at exit. -/
structure RunTrace where
  skipped : Bool
  fetched : Bool
  ledger : Option (List String)
deriving DecidableEq

/-- Failures the orchestrator converts into a non-zero exit. -/
inductive RunError
  | schedule
  | extractFail (e : ExtractError)
  | pyFail (e : PyError)
deriving DecidableEq

/-- The skip-if-exists check of `main`: with the flag set and the file
present, read the rows and scan `rows[1:]` for today's date;
`dates = [r[0] for r in rows[1:]] if len(rows) > 1 else []` can raise
`IndexError` on a blank line. -/
def skipToday (skipIfExists : Bool) (file? : Option (List String))
    (today : String) : Except PyError Bool :=
  match skipIfExists, file? with
  | true, some ls =>
    let rows := parseCSV ls
    if 1 < rows.length then
      match scanDates (rows.drop 1) with
      | .error e => .error e
      | .ok dates => .ok (decide (today ∈ dates))
    else .ok false
  | _, _ => .ok false

/-- `main` after configuration load: weekday gate, time-window gate, skip
check, then fetch → extract → persist.  `tbl` is the table the fetch would
return; `fetched` records whether that network pipeline was invoked. -/
def main (validDays : List Nat) (todayW : Nat) (startT endT now : Nat)
    (skipIfExists : Bool) (file? : Option (List String)) (today : String)
    (tbl : HtmlTable) (currency : String) : Except RunError RunTrace :=
  if todayW ∈ validDays then
    if startT ≤ now ∧ now ≤ endT then
      match skipToday skipIfExists file? today with
      | .error e => .error (.pyFail e)
      | .ok true => .ok ⟨true, false, file?⟩
      | .ok false =>
        match extract_eur_rate tbl currency with
        | .error e => .error (.extractFail e)
        | .ok (m, s) =>
          match save_csv file? today m s with
          | .error e => .error (.pyFail e)
          | .ok out => .ok ⟨false, true, some out⟩
    else .error .schedule
  else .error .schedule

/-! ### Extractor lemmas -/

theorem getCell_ok_ne_nil (cols : List String) (i : Nat) (v : String)
    (h : getCell cols i = .ok v) : cols ≠ [] := by
  intro hnil
  subst hnil
  simp [getCell] at h

theorem scanRows_skip (ic im is : Nat) (cur : String)
    (pre rows : List (List String))
    (hpre : ∀ r ∈ pre, r = [] ∨
      ∃ d, getCell r ic = .ok d ∧ pyUpper d ≠ pyUpper cur) :
    scanRows ic im is cur (pre ++ rows) = scanRows ic im is cur rows := by
  induction pre with
  | nil => rfl
  | cons r pre ih =>
    have hr := hpre r (by simp)
    rcases hr with hr | ⟨d, hd, hdm⟩
    · subst hr
      show scanRows ic im is cur ([] :: (pre ++ rows)) = _
      simp only [scanRows, if_pos rfl]
      exact ih fun q hq => hpre q (by simp [hq])
    · have hrne : r ≠ [] := getCell_ok_ne_nil r ic d hd
      show scanRows ic im is cur (r :: (pre ++ rows)) = _
      simp only [scanRows, if_neg hrne, hd, if_neg hdm]
      exact ih fun q hq => hpre q (by simp [hq])

theorem scanRows_match (ic im is : Nat) (cur : String) (cols : List String)
    (post : List (List String)) (c : String)
    (hc : getCell cols ic = .ok c) (hm : pyUpper c = pyUpper cur) :
    scanRows ic im is cur (cols :: post) = rowResult cols im is := by
  have hne : cols ≠ [] := getCell_ok_ne_nil cols ic c hc
  simp only [scanRows, if_neg hne, hc, if_pos hm]

/-! ### Claim theorems: extractor -/

/-- C7: whenever at least one of the exact labels `Currency`, `Middle`,
`Sales` is absent from the resolved header row, extraction fails with a
`ParseError` that names an absent label and carries the full observed header
list; when only `Sales` is absent (in particular whenever `Currency` and
`Middle` are present), the named label is `Sales`. -/
theorem extract_missing_header_error (tbl : HtmlTable) (cur : String)
    (h : "Currency" ∉ tbl.headers ∨ "Middle" ∉ tbl.headers ∨
      "Sales" ∉ tbl.headers) :
    ∃ l, extract_eur_rate tbl cur = .error (.headersMissing l tbl.headers) ∧
      l ∉ tbl.headers ∧ (l = "Currency" ∨ l = "Middle" ∨ l = "Sales") ∧
      (("Currency" ∈ tbl.headers ∧ "Middle" ∈ tbl.headers) → l = "Sales") := by
  by_cases hC : "Currency" ∈ tbl.headers
  · by_cases hM : "Middle" ∈ tbl.headers
    · have hS : "Sales" ∉ tbl.headers := by
        rcases h with h | h | h
        · exact absurd hC h
        · exact absurd hM h
        · exact h
      refine ⟨"Sales", ?_, hS, by simp, fun _ => rfl⟩
      simp [extract_eur_rate, headerIndex, hC, hM, hS]
    · refine ⟨"Middle", ?_, hM, by simp, fun hh => absurd hh.2 hM⟩
      simp [extract_eur_rate, headerIndex, hC, hM]
  · refine ⟨"Currency", ?_, hC, by simp, fun hh => absurd hh.1 hC⟩
    simp [extract_eur_rate, headerIndex, hC]

/-- Witness for C7: a table whose header lacks only `Sales` yields the error
naming `Sales` with the observed headers. -/
theorem extract_missing_header_error_witness :
    extract_eur_rate ⟨["Currency", "Middle"], []⟩ "EUR"
      = .error (.headersMissing "Sales" ["Currency", "Middle"]) := by
  obtain ⟨l, he, hnm, hone, hsal⟩ :=
    extract_missing_header_error ⟨["Currency", "Middle"], []⟩ "EUR"
      (Or.inr (Or.inr (by decide)))
  have hl : l = "Sales" := hsal ⟨by decide, by decide⟩
  rw [hl] at he
  exact he

/-- C3 counterexample: on a table with default column order and the row
`EUR, 1.234,56, 1.240,00` literally as the claim states it, the code raises
the non-numeric `ParseError` (because `"1.234,56".replace(",", ".")` is
`"1.234.56"`, which `float` rejects); it does not return
`("1234,56", "1240,00")`. -/
theorem extract_thousands_separator_counterexample :
    extract_eur_rate ⟨["Currency", "Middle", "Sales"],
        [["EUR", "1.234,56", "1.240,00"]]⟩ "EUR"
      = .error (.nonNumeric "1.234,56" "1.240,00") ∧
    extract_eur_rate ⟨["Currency", "Middle", "Sales"],
        [["EUR", "1.234,56", "1.240,00"]]⟩ "EUR"
      ≠ .ok ("1234,56", "1240,00") := by
  constructor
  · rfl
  · decide

/-- C3 as amended: for a header row containing `Currency`, `Middle`, `Sales`
in any column order, and a first currency-matching data row carrying `EUR`
with middle `1234.56` and sales `1240.00` in plain dot-decimal form (no
thousands separator), extraction succeeds with `("1234,56", "1240,00")`. -/
theorem extract_plain_decimal_ok (hs : List String)
    (pre post : List (List String)) (cols : List String)
    (hC : "Currency" ∈ hs) (hM : "Middle" ∈ hs) (hS : "Sales" ∈ hs)
    (hpre : ∀ r ∈ pre, r = [] ∨
      ∃ d, getCell r (listIndex "Currency" hs) = .ok d ∧
        pyUpper d ≠ pyUpper "EUR")
    (hcur : getCell cols (listIndex "Currency" hs) = .ok "EUR")
    (hmid : getCell cols (listIndex "Middle" hs) = .ok "1234.56")
    (hsal : getCell cols (listIndex "Sales" hs) = .ok "1240.00") :
    extract_eur_rate ⟨hs, pre ++ cols :: post⟩ "EUR"
      = .ok ("1234,56", "1240,00") := by
  simp only [extract_eur_rate, headerIndex, if_pos hC, if_pos hM, if_pos hS]
  rw [scanRows_skip _ _ _ _ _ _ hpre, scanRows_match _ _ _ _ _ _ _ hcur rfl]
  simp only [rowResult, hmid, hsal]
  decide

/-- Witness for the amended C3: a permuted column order
(`Middle, Sales, Currency`), a preceding non-matching row, and the plain
dot-decimal rate row. -/
theorem extract_plain_decimal_ok_witness :
    extract_eur_rate ⟨["Middle", "Sales", "Currency"],
        [["1,01", "1,03", "USD"], ["1234.56", "1240.00", "EUR"]]⟩ "EUR"
      = .ok ("1234,56", "1240,00") := by
  have h := extract_plain_decimal_ok ["Middle", "Sales", "Currency"]
    [["1,01", "1,03", "USD"]] [] ["1234.56", "1240.00", "EUR"]
    (by decide) (by decide) (by decide)
    (by
      intro r hr
      have hr' : r = ["1,01", "1,03", "USD"] := by simpa using hr
      subst hr'
      exact Or.inr ⟨"USD", by decide, by decide⟩)
    (by decide) (by decide) (by decide)
  exact h

/-- C8: the extractor scans data rows in document order, skips rows yielding
no cell text, and the result is decided entirely by the first row whose
currency cell case-insensitively equals the target (rows after it, matching
or not, are ignored). -/
theorem extract_first_match_case_insensitive (hs : List String)
    (pre post : List (List String)) (cols : List String) (c cur : String)
    (hC : "Currency" ∈ hs) (hM : "Middle" ∈ hs) (hS : "Sales" ∈ hs)
    (hpre : ∀ r ∈ pre, r = [] ∨
      ∃ d, getCell r (listIndex "Currency" hs) = .ok d ∧
        pyUpper d ≠ pyUpper cur)
    (hc : getCell cols (listIndex "Currency" hs) = .ok c)
    (hm : pyUpper c = pyUpper cur) :
    extract_eur_rate ⟨hs, pre ++ cols :: post⟩ cur
      = rowResult cols (listIndex "Middle" hs) (listIndex "Sales" hs) := by
  simp only [extract_eur_rate, headerIndex, if_pos hC, if_pos hM, if_pos hS]
  rw [scanRows_skip _ _ _ _ _ _ hpre, scanRows_match _ _ _ _ _ _ _ hc hm]

/-- Witness for C8: an empty row and a non-matching row are skipped, the
lower-case `eur` row matches target `EUR`, and the later duplicate `EUR` row
is ignored. -/
theorem extract_first_match_case_insensitive_witness :
    extract_eur_rate ⟨["Currency", "Middle", "Sales"],
        [[], ["usd", "1,01", "1,03"], ["eur", "7,53", "7,59"],
          ["EUR", "9,99", "9,98"]]⟩ "EUR"
      = .ok ("7,53", "7,59") := by
  have h := extract_first_match_case_insensitive ["Currency", "Middle", "Sales"]
    [[], ["usd", "1,01", "1,03"]] [["EUR", "9,99", "9,98"]]
    ["eur", "7,53", "7,59"] "eur" "EUR"
    (by decide) (by decide) (by decide)
    (by
      intro r hr
      have hr' : r = [] ∨ r = ["usd", "1,01", "1,03"] := by simpa using hr
      rcases hr' with rfl | rfl
      · exact Or.inl rfl
      · exact Or.inr ⟨"usd", by decide, by decide⟩)
    (by decide) (by decide)
  exact h.trans (by decide)

/-! ### Claim theorems: atomic write, skip path, blank lines -/

/-- C4: with the row set computed, the only file-system mutations are the
temp write and the atomic rename, so at every interruption point of the
sequence the target path holds either the complete prior contents or the
complete new contents, and after the full sequence it holds the new
contents. -/
theorem save_csv_atomic_write (file? : Option (List String))
    (tmp0 : Option (List String)) (t m s : String) (out : List String)
    (h : save_csv file? t m s = .ok out) :
    (∀ p ∈ stepPrefixes,
      (runSteps out ⟨file?, tmp0⟩ p).target = file? ∨
      (runSteps out ⟨file?, tmp0⟩ p).target = some out) ∧
    (runSteps out ⟨file?, tmp0⟩ saveSteps).target = some out := by
  refine ⟨?_, rfl⟩
  intro p hp
  have hp' : p = [] ∨ p = [WriteStep.writeTemp] ∨ p = saveSteps := by
    simpa [stepPrefixes] using hp
  rcases hp' with rfl | rfl | rfl
  · exact Or.inl rfl
  · exact Or.inl rfl
  · exact Or.inr rfl

/-- Witness for C4: creating the ledger from scratch, the completed step
sequence leaves the new contents at the target. -/
theorem save_csv_atomic_write_witness :
    (runSteps ["Data;Middle;Sales", "01/06/2024;1,10;1,12"] ⟨none, none⟩
      saveSteps).target = some ["Data;Middle;Sales", "01/06/2024;1,10;1,12"] :=
  (save_csv_atomic_write none none "01/06/2024" "1,10" "1,12"
    ["Data;Middle;Sales", "01/06/2024;1,10;1,12"] (by decide)).2

/-- C5: with `skip_if_exists` set and some post-header ledger row carrying
today's date, the orchestrator terminates in the skipped state, the
fetch/extract pipeline is never invoked, and the ledger file is byte-identical
to its input. -/
theorem main_skip_noop (validDays : List Nat) (todayW startT endT now : Nat)
    (ls : List String) (today : String) (tbl : HtmlTable) (currency : String)
    (r0 : List String) (rest : List (List String))
    (hday : todayW ∈ validDays) (htime : startT ≤ now ∧ now ≤ endT)
    (hrows : parseCSV ls = r0 :: rest)
    (hne : ∀ r ∈ rest, r ≠ [])
    (hmem : today ∈ heads rest) :
    main validDays todayW startT endT now true (some ls) today tbl currency
      = .ok ⟨true, false, some ls⟩ := by
  have hrest : rest ≠ [] := by
    intro h; rw [h] at hmem; simp [heads] at hmem
  cases rest with
  | nil => exact absurd rfl hrest
  | cons q qs =>
    have hscan := scanDates_ok_of_ne_nil (q :: qs) hne
    have hskip : skipToday true (some ls) today = .ok true := by
      simp only [skipToday, hrows]
      rw [if_pos (by simp)]
      simp only [List.drop_succ_cons, List.drop_zero]
      rw [hscan]
      simp only [Except.ok.injEq, decide_eq_true_eq]
      exact hmem
    simp only [main, if_pos hday, if_pos htime, hskip]

/-- Witness for C5: a two-line ledger already holding today's row is left
untouched and nothing is fetched. -/
theorem main_skip_noop_witness :
    main [0, 1, 2, 3, 4] 2 480 540 500 true
      (some ["Data;Middle;Sales", "01/06/2024;1,10;1,12"]) "01/06/2024"
      ⟨[], []⟩ "EUR"
      = .ok ⟨true, false, some ["Data;Middle;Sales", "01/06/2024;1,10;1,12"]⟩ :=
  main_skip_noop [0, 1, 2, 3, 4] 2 480 540 500
    ["Data;Middle;Sales", "01/06/2024;1,10;1,12"] "01/06/2024" ⟨[], []⟩ "EUR"
    ["Data", "Middle", "Sales"] [["01/06/2024", "1,10", "1,12"]]
    (by decide) (by decide) (by decide) (by decide) (by decide)

/-- C9: the date scan `dates = [r[0] for r in existing]` indexes field 0 of
every parsed row.  When every row is non-empty the upsert succeeds; but a
ledger file containing a blank line (which `csv.reader` parses to the empty
row) makes `save_csv` fail with the unclassified `IndexError`, before the
temporary file is written, leaving the file system untouched. -/
theorem save_csv_blank_line_index_error (ls : List String) (t m s : String) :
    ("" ∈ ls →
      save_csv (some ls) t m s = .error .indexError ∧
      ∀ tmp0, save_csv_fs ⟨some ls, tmp0⟩ t m s
        = (⟨some ls, tmp0⟩, .error .indexError)) ∧
    ((∀ l ∈ ls, l ≠ "") → ∃ out, save_csv (some ls) t m s = .ok out) := by
  constructor
  · intro hblank
    have hnil : [] ∈ existingOf (some ls) := by
      show [] ∈ parseCSV ls
      exact List.mem_map.mpr ⟨"", hblank, rfl⟩
    have hnil2 : [] ∈ normalizeHeader (existingOf (some ls)) := by
      unfold normalizeHeader
      split
      · exact hnil
      · exact List.mem_cons_of_mem _ hnil
    have herr : save_csv (some ls) t m s = .error .indexError := by
      unfold save_csv upsertRow
      rw [scanDates_error_of_mem_nil _ hnil2]
    refine ⟨herr, fun tmp0 => ?_⟩
    unfold save_csv_fs
    simp only [herr]
  · intro hnb
    have hne : ∀ r ∈ normalizeHeader (existingOf (some ls)), r ≠ [] := by
      intro r hr
      rcases mem_normalizeHeader _ r hr with rfl | hr
      · simp [header]
      · rcases List.mem_map.mp hr with ⟨l, hl, rfl⟩
        have hld : l.data ≠ [] := by
          intro hd
          apply hnb l hl
          rcases l with ⟨d⟩
          rw [show d = [] from hd]
        simp only [parseLine, if_neg hld, ne_eq, List.map_eq_nil_iff]
        exact splitSemi_ne_nil l.data
    have hscan := scanDates_ok_of_ne_nil _ hne
    have hups : ∃ res,
        upsertRow (normalizeHeader (existingOf (some ls))) t m s = .ok res := by
      unfold upsertRow
      rw [hscan]
      by_cases hmem : t ∈ heads (normalizeHeader (existingOf (some ls)))
      · exact ⟨_, if_pos hmem⟩
      · exact ⟨_, if_neg hmem⟩
    rcases hups with ⟨res, hres⟩
    refine ⟨writeCSV res, ?_⟩
    unfold save_csv
    rw [hres]

/-- Witness for C9: a ledger with a blank middle line makes the upsert fail
with `IndexError`. -/
theorem save_csv_blank_line_index_error_witness :
    save_csv (some ["Data;Middle;Sales", "", "01/06/2024;1,05;1,07"])
      "02/06/2024" "1,10" "1,12" = .error .indexError :=
  ((save_csv_blank_line_index_error
    ["Data;Middle;Sales", "", "01/06/2024;1,05;1,07"]
    "02/06/2024" "1,10" "1,12").1 (by decide)).1

/-- C10: the skip check scans only `rows[1:]` for today's date while the
upsert scans every row, so a ledger whose first row (no header) carries
today's date is not skipped: the run fetches, extracts, and upserts —
inserting the canonical header and replacing the first-row match. -/
theorem main_headerless_first_row_not_skipped (validDays : List Nat)
    (todayW startT endT now : Nat) (ls : List String) (today : String)
    (tbl : HtmlTable) (currency : String) (rest0 : List String)
    (tailRows : List (List String)) (m s : String)
    (hday : todayW ∈ validDays) (htime : startT ≤ now ∧ now ≤ endT)
    (hparse : parseCSV ls = (today :: rest0) :: tailRows)
    (hD : today ≠ "Data")
    (hne : ∀ r ∈ tailRows, r ≠ [])
    (hnot : today ∉ heads tailRows)
    (hext : extract_eur_rate tbl currency = .ok (m, s)) :
    main validDays todayW startT endT now true (some ls) today tbl currency
      = .ok ⟨false, true, some (writeCSV (header :: [today, m, s] :: tailRows))⟩ := by
  have hskip : skipToday true (some ls) today = .ok false := by
    cases tailRows with
    | nil =>
      simp only [skipToday, hparse]
      rw [if_neg (by simp)]
    | cons q qs =>
      have hscan := scanDates_ok_of_ne_nil (q :: qs) hne
      simp only [skipToday, hparse]
      rw [if_pos (by simp)]
      simp only [List.drop_succ_cons, List.drop_zero]
      rw [hscan]
      simp only [Except.ok.injEq, decide_eq_false_iff_not]
      exact hnot
  have hhd : ((today :: rest0) :: tailRows).head? ≠ some header := by
    simp only [List.head?_cons, ne_eq, Option.some.injEq]
    intro hcon
    apply hD
    have hh := congrArg List.headI hcon
    simpa [header] using hh
  have hupsert : upsertRow (normalizeHeader (existingOf (some ls))) today m s
      = .ok (header :: [today, m, s] :: tailRows) := by
    have hex : existingOf (some ls) = (today :: rest0) :: tailRows := hparse
    rw [hex]
    unfold normalizeHeader
    rw [if_neg hhd]
    have h1 := upsertRow_found [header] tailRows rest0 today m s
      (by
        intro q hq
        have hq' : q = header := by simpa using hq
        subst hq'
        refine ⟨by simp [header], ?_⟩
        show header.headI ≠ today
        simp only [header, List.headI]
        exact fun hh => hD hh.symm)
      hne
    exact h1
  have hsave : save_csv (some ls) today m s
      = .ok (writeCSV (header :: [today, m, s] :: tailRows)) := by
    unfold save_csv
    rw [hupsert]
  simp only [main, if_pos hday, if_pos htime, hskip, hext, hsave]

/-- Witness for C10: a headerless two-row ledger whose first row is today's
date proceeds to fetch and upsert instead of skipping. -/
theorem main_headerless_first_row_not_skipped_witness :
    main [0, 1, 2, 3, 4] 2 480 540 500 true
      (some ["01/06/2024;1,05;1,07", "31/05/2024;1,00;1,02"]) "01/06/2024"
      ⟨["Currency", "Middle", "Sales"], [["EUR", "7,53", "7,59"]]⟩ "EUR"
      = .ok ⟨false, true,
          some ["Data;Middle;Sales", "01/06/2024;7,53;7,59",
            "31/05/2024;1,00;1,02"]⟩ :=
  (main_headerless_first_row_not_skipped [0, 1, 2, 3, 4] 2 480 540 500
    ["01/06/2024;1,05;1,07", "31/05/2024;1,00;1,02"] "01/06/2024"
    ⟨["Currency", "Middle", "Sales"], [["EUR", "7,53", "7,59"]]⟩ "EUR"
    ["1,05", "1,07"] [["31/05/2024", "1,00", "1,02"]] "7,53" "7,59"
    (by decide) (by decide) (by decide) (by decide) (by decide) (by decide)
    (by decide)).trans (by decide)

/-! ### Claim theorems: upsert update, header self-healing, idempotence -/

/-- C2: for an existing ledger (header first) holding exactly one row whose
date field equals today's date, `save_csv` replaces that row's middle/sales
fields in place: no second row for the date appears, and every other row is
unchanged and in its original order. -/
theorem save_csv_updates_in_place (ls : List String) (t m s : String)
    (pre post : List (List String)) (rest : List String)
    (hparse : parseCSV ls = pre ++ (t :: rest) :: post)
    (hhead : (pre ++ (t :: rest) :: post).head? = some header)
    (hpre : ∀ q ∈ pre, q ≠ [] ∧ q.headI ≠ t)
    (hpost : ∀ q ∈ post, q ≠ [] ∧ q.headI ≠ t) :
    save_csv (some ls) t m s = .ok (writeCSV (pre ++ [t, m, s] :: post)) := by
  have hex : existingOf (some ls) = pre ++ (t :: rest) :: post := hparse
  have hnh : normalizeHeader (existingOf (some ls))
      = pre ++ (t :: rest) :: post := by
    rw [hex]
    unfold normalizeHeader
    rw [if_pos hhead]
  have hu := upsertRow_found pre post rest t m s hpre fun q hq => (hpost q hq).1
  unfold save_csv
  rw [hnh, hu]

/-- Witness for C2: the ledger row for `01/06/2024` is replaced by the new
rate, other rows and their order untouched. -/
theorem save_csv_updates_in_place_witness :
    save_csv (some ["Data;Middle;Sales", "31/05/2024;1,00;1,02",
        "01/06/2024;1,05;1,07", "02/06/2024;1,06;1,08"])
      "01/06/2024" "1,10" "1,12"
      = .ok ["Data;Middle;Sales", "31/05/2024;1,00;1,02",
          "01/06/2024;1,10;1,12", "02/06/2024;1,06;1,08"] :=
  (save_csv_updates_in_place
    ["Data;Middle;Sales", "31/05/2024;1,00;1,02", "01/06/2024;1,05;1,07",
      "02/06/2024;1,06;1,08"]
    "01/06/2024" "1,10" "1,12"
    [["Data", "Middle", "Sales"], ["31/05/2024", "1,00", "1,02"]]
    [["02/06/2024", "1,06", "1,08"]] ["1,05", "1,07"]
    (by decide) (by decide) (by decide) (by decide)).trans (by decide)

theorem upsertRow_head_header (ex : List (List String)) (t m s : String)
    (res : List (List String))
    (hhd : ex.head? = some header) (hD : t ≠ "Data")
    (h : upsertRow ex t m s = .ok res) : res.head? = some header := by
  cases ex with
  | nil => simp at hhd
  | cons e0 exs =>
    have he0 : e0 = header := by simpa using hhd
    subst he0
    have hne := upsertRow_ok_ne_nil _ t m s res h
    by_cases hmem : t ∈ heads (header :: exs)
    · obtain ⟨pre, rest, post, hdec, hpre⟩ := heads_decomp _ t hne hmem
      have hpostne : ∀ q ∈ post, q ≠ [] := fun q hq => hne q
        (by rw [hdec]; exact List.mem_append_right _ (List.mem_cons_of_mem _ hq))
      have hfound := upsertRow_found pre post rest t m s hpre hpostne
      have hresval : res = pre ++ [t, m, s] :: post := by
        rw [hdec, hfound] at h
        injection h with hh
        exact hh.symm
      subst hresval
      cases pre with
      | nil =>
        exfalso
        have hcon : header :: exs = (t :: rest) :: post := by simpa using hdec
        have hcon2 : header = t :: rest := by injection hcon
        exact hD (by simpa [header] using congrArg List.headI hcon2.symm)
      | cons p0 pre' =>
        have hp0 : p0 = header := by
          have hcon : header :: exs = p0 :: (pre' ++ (t :: rest) :: post) := by
            simpa using hdec
          have := congrArg List.head? hcon
          simpa using this.symm
        rw [hp0]
        rfl
    · have happ := upsertRow_append _ t m s fun q hq =>
        ⟨hne q hq, fun hh => hmem (by rw [← hh]; exact List.mem_map.mpr ⟨q, hq, rfl⟩)⟩
      have hresval : res = (header :: exs) ++ [[t, m, s]] := by
        rw [happ] at h
        injection h with hh
        exact hh.symm
      subst hresval
      rfl

/-- C6: whenever the parsed row list is empty or does not start with the
canonical header, `save_csv` inserts the canonical header at position 0
before the date scan, and the written ledger has the canonical header as its
first row. -/
theorem save_csv_header_self_healing (file? : Option (List String))
    (t m s : String) (out : List String)
    (hD : t ≠ "Data")
    (hnohdr : (existingOf file?).head? ≠ some header)
    (h : save_csv file? t m s = .ok out) :
    normalizeHeader (existingOf file?) = header :: existingOf file? ∧
    (parseCSV out).head? = some header := by
  have hnh : normalizeHeader (existingOf file?) = header :: existingOf file? := by
    unfold normalizeHeader
    rw [if_neg hnohdr]
  refine ⟨hnh, ?_⟩
  obtain ⟨res, hres, rfl⟩ := save_csv_ok_elim file? t m s out h
  have hreshd : res.head? = some header :=
    upsertRow_head_header _ t m s res (by rw [hnh]; rfl) hD hres
  have hmap : parseCSV (writeCSV res)
      = res.map (fun r => parseLine (writeRow r)) := by
    unfold parseCSV writeCSV
    rw [List.map_map]
    rfl
  rw [hmap, List.head?_map, hreshd]
  show some (parseLine (writeRow header)) = some header
  decide

/-- Witness for C6: a headerless one-row ledger gets the canonical header
inserted, and the written file starts with it. -/
theorem save_csv_header_self_healing_witness :
    normalizeHeader (existingOf (some ["01/06/2024;1,05;1,07"]))
      = header :: existingOf (some ["01/06/2024;1,05;1,07"]) ∧
    (parseCSV ["Data;Middle;Sales", "01/06/2024;1,05;1,07",
        "02/06/2024;1,10;1,12"]).head? = some header :=
  save_csv_header_self_healing (some ["01/06/2024;1,05;1,07"])
    "02/06/2024" "1,10" "1,12"
    ["Data;Middle;Sales", "01/06/2024;1,05;1,07", "02/06/2024;1,10;1,12"]
    (by decide) (by decide) (by decide)

/-- C1: `save_csv` is idempotent.  For a date in rendered `DD/MM/YYYY` form
(hence distinct from the header label `Data` and free of the `;` delimiter,
as are the comma-decimal rate strings), running the upsert a second time with
the same date and values on the file produced by the first run writes the
byte-identical line sequence: header normalization is stable and the existing
row for the date is replaced by an equal row. -/
theorem save_csv_idempotent (file? : Option (List String)) (t m s : String)
    (out1 : List String)
    (hD : t ≠ "Data")
    (ht : ';' ∉ t.data) (hm : ';' ∉ m.data) (hs : ';' ∉ s.data)
    (h : save_csv file? t m s = .ok out1) :
    save_csv (some out1) t m s = .ok out1 := by
  obtain ⟨res, hres, rfl⟩ := save_csv_ok_elim file? t m s out1 h
  set ex2 := normalizeHeader (existingOf file?) with hex2def
  have hex2ne : ∀ r ∈ ex2, r ≠ [] := upsertRow_ok_ne_nil ex2 t m s res hres
  have hex2hd : ex2.head? = some header := by
    rw [hex2def]; exact normalizeHeader_head _
  have hex2rt : ∀ r ∈ ex2, parseLine (writeRow r) = r := by
    intro r hr
    rw [hex2def] at hr
    rcases mem_normalizeHeader _ r hr with rfl | hr2
    · decide
    · cases file? with
      | none => simp [existingOf] at hr2
      | some ls =>
        rcases List.mem_map.mp hr2 with ⟨l, _, rfl⟩
        exact parseLine_writeRow_parseLine l
  have hrowrt : parseLine (writeRow [t, m, s]) = [t, m, s] := by
    apply parseLine_writeRow_of_fields
    · simp
    · intro f hf
      have hf' : f = t ∨ f = m ∨ f = s := by simpa using hf
      rcases hf' with rfl | rfl | rfl
      · exact ht
      · exact hm
      · exact hs
    · simp
  by_cases hmem : t ∈ heads ex2
  · obtain ⟨pre, rest, post, hdec, hpre⟩ := heads_decomp ex2 t hex2ne hmem
    have hpostne : ∀ q ∈ post, q ≠ [] := by
      intro q hq
      apply hex2ne
      rw [hdec]
      exact List.mem_append_right _ (List.mem_cons_of_mem _ hq)
    have hfound := upsertRow_found pre post rest t m s hpre hpostne
    have hresval : res = pre ++ [t, m, s] :: post := by
      rw [hdec, hfound] at hres
      injection hres with hh
      exact hh.symm
    subst hresval
    have hpre_ne : pre ≠ [] := by
      intro hpnil
      rw [hdec, hpnil] at hex2hd
      have hcon : t :: rest = header := by simpa using hex2hd
      exact hD (by simpa [header] using congrArg List.headI hcon)
    obtain ⟨p0, pre', rfl⟩ : ∃ p0 pre', pre = p0 :: pre' := by
      cases pre with
      | nil => exact absurd rfl hpre_ne
      | cons a as => exact ⟨a, as, rfl⟩
    have hp0 : p0 = header := by
      rw [hdec] at hex2hd
      simpa using hex2hd
    have hrt : ∀ r ∈ (p0 :: pre') ++ [t, m, s] :: post,
        parseLine (writeRow r) = r := by
      intro r hr
      rcases List.mem_append.mp hr with hr | hr
      · exact hex2rt r (by rw [hdec]; exact List.mem_append_left _ hr)
      · rcases List.mem_cons.mp hr with rfl | hr
        · exact hrowrt
        · exact hex2rt r
            (by rw [hdec]
                exact List.mem_append_right _ (List.mem_cons_of_mem _ hr))
    have hparse2 : parseCSV (writeCSV ((p0 :: pre') ++ [t, m, s] :: post))
        = (p0 :: pre') ++ [t, m, s] :: post := parseCSV_writeCSV _ hrt
    have hreshd : ((p0 :: pre') ++ [t, m, s] :: post).head? = some header := by
      rw [hp0]
      rfl
    have hup2 := upsertRow_found (p0 :: pre') post [m, s] t m s hpre hpostne
    have hnorm : normalizeHeader (existingOf
        (some (writeCSV ((p0 :: pre') ++ [t, m, s] :: post))))
        = (p0 :: pre') ++ [t, m, s] :: post := by
      show normalizeHeader (parseCSV (writeCSV ((p0 :: pre') ++ [t, m, s] :: post))) = _
      rw [hparse2]
      unfold normalizeHeader
      rw [if_pos hreshd]
    unfold save_csv
    rw [hnorm, hup2]
  · have hpre2 : ∀ q ∈ ex2, q ≠ [] ∧ q.headI ≠ t := by
      intro q hq
      refine ⟨hex2ne q hq, fun hh => hmem ?_⟩
      rw [← hh]
      exact List.mem_map.mpr ⟨q, hq, rfl⟩
    have happ := upsertRow_append ex2 t m s hpre2
    have hresval : res = ex2 ++ [[t, m, s]] := by
      rw [happ] at hres
      injection hres with hh
      exact hh.symm
    subst hresval
    have hrt : ∀ r ∈ ex2 ++ [[t, m, s]], parseLine (writeRow r) = r := by
      intro r hr
      rcases List.mem_append.mp hr with hr | hr
      · exact hex2rt r hr
      · rcases List.mem_cons.mp hr with rfl | hr
        · exact hrowrt
        · simp at hr
    have hparse2 : parseCSV (writeCSV (ex2 ++ [[t, m, s]]))
        = ex2 ++ [[t, m, s]] := parseCSV_writeCSV _ hrt
    have hreshd : (ex2 ++ [[t, m, s]]).head? = some header := by
      cases hcex : ex2 with
      | nil => rw [hcex] at hex2hd; simp at hex2hd
      | cons e0 exs =>
        rw [hcex] at hex2hd
        have he0 : e0 = header := by simpa using hex2hd
        rw [he0]
        rfl
    have hup2 := upsertRow_found ex2 [] [m, s] t m s hpre2 (by simp)
    have hnorm : normalizeHeader (existingOf (some (writeCSV (ex2 ++ [[t, m, s]]))))
        = ex2 ++ [[t, m, s]] := by
      show normalizeHeader (parseCSV (writeCSV (ex2 ++ [[t, m, s]]))) = _
      rw [hparse2]
      unfold normalizeHeader
      rw [if_pos hreshd]
    unfold save_csv
    rw [hnorm]
    rw [show ex2 ++ [[t, m, s]] = ex2 ++ [t, m, s] :: [] from rfl, hup2]

/-- Witness for C1: a second upsert of the same `(date, rate)` on the file
the first run wrote reproduces it exactly. -/
theorem save_csv_idempotent_witness :
    save_csv (some ["Data;Middle;Sales", "31/05/2024;1,00;1,02",
        "01/06/2024;1,10;1,12"]) "01/06/2024" "1,10" "1,12"
      = .ok ["Data;Middle;Sales", "31/05/2024;1,00;1,02",
          "01/06/2024;1,10;1,12"] :=
  save_csv_idempotent (some ["Data;Middle;Sales", "31/05/2024;1,00;1,02"])
    "01/06/2024" "1,10" "1,12"
    ["Data;Middle;Sales", "31/05/2024;1,00;1,02", "01/06/2024;1,10;1,12"]
    (by decide) (by decide) (by decide) (by decide) (by decide)

end EstraiCambio
